import Mathlib

/-!
Verification of the sigalyze audio engine (src/engine.h, src/engine.cpp)
against its natural-language specification.

The development shallowly embeds the parts of the engine the claims are
about:

* the integer-to-float sample converters (`sample_converter<int_t>` and
  `AbstractSampleConverter::make_converter`);
* the pump's channel downmix (`AudioPipe::downmix_to_mono` and the block
  publication step of `AudioPipe::run`);
* the FFT analysis window (`FFTProcessor::make_window`);
* the timestamp-ordered handoff queue (`TimedDataQueue`);
* the output driver's overflow/drop bookkeeping and clock
  (`AudioOutputDriver::write_samples`, `AudioOutputDriver::time`);
* the streaming RMS level (`RMSProcessor::process_samples`) and the
  streaming spectrum state machine (`FFTProcessor::process_samples`).

Conventions: machine integers are embedded as `Nat`/`Int` (all the
arithmetic the claims touch stays far from the 32/64-bit overflow
boundaries), C++ `float`/`double` data values as `ℚ` where the code only
moves them around and as `ℝ` where it does analysis arithmetic on them
(sum of squares, square root, cosine), `std::chrono` time points and
durations as integer microsecond counts (`ℤ` for points, `ℕ` for
non-negative durations), and `std::vector`/`std::queue` contents as
`List`s with the front of the queue at the head.  Fallible operations
return `Option`/`Except`.  Integer division in the source
(`a * 1000000 / rate` and friends) is embedded as `Nat` division.
-/

/-! ## Sample format conversion (src/engine.cpp lines 13-31, 89-142) -/

/-- Sample encodings of QAudioFormat::SampleType that reach
`AbstractSampleConverter::make_converter`: SignedInt, UnSignedInt, Float,
and the catch-all for anything else (Unknown). -/
inductive SampleType where
  | signedInt : SampleType
  | unSignedInt : SampleType
  | float : SampleType
  | unknown : SampleType
deriving DecidableEq

/-- Smallest representable value of the integer sample type
(`std::numeric_limits<int_t>::min()`). -/
def int_min (signed : Bool) (bits : ℕ) : ℤ :=
  if signed then -(2 ^ (bits - 1)) else 0

/-- Largest representable value of the integer sample type
(`std::numeric_limits<int_t>::max()`). -/
def int_max (signed : Bool) (bits : ℕ) : ℤ :=
  if signed then 2 ^ (bits - 1) - 1 else 2 ^ bits - 1

/-- Normalisation range of `sample_converter<int_t>`:
`(float)max - (float)min`. -/
def sample_range (signed : Bool) (bits : ℕ) : ℚ :=
  (int_max signed bits : ℚ) - (int_min signed bits : ℚ)

/-- Conversion of one integer sample by `sample_converter<int_t>::convert`:
`((float)value - (float)min) / range * 2 - 1`, embedded exactly over `ℚ`. -/
def sample_convert (signed : Bool) (bits : ℕ) (v : ℤ) : ℚ :=
  ((v : ℚ) - (int_min signed bits : ℚ)) / sample_range signed bits * 2 - 1

/-- Result of converter selection: an integer-to-float converter for the
given signedness and width, or the pass-through used for native 32-bit
float (the source returns `nullptr` there and skips conversion). -/
inductive ConverterChoice where
  | intConverter (signed : Bool) (bits : ℕ) : ConverterChoice
  | passThrough : ConverterChoice
deriving DecidableEq

/-- Converter selection, `AbstractSampleConverter::make_converter`:
signed/unsigned 16- and 32-bit integers get an `IntToFloatConverter`,
32-bit float passes through, and every other (encoding, width) pair
throws `std::runtime_error`, embedded as `Except.error`. -/
def make_converter (sample_type : SampleType) (bits : ℕ) :
    Except String ConverterChoice :=
  match sample_type with
  | SampleType.signedInt =>
    if bits = 16 then Except.ok (ConverterChoice.intConverter true 16)
    else if bits = 32 then Except.ok (ConverterChoice.intConverter true 32)
    else Except.error "unsupported sample format: s"
  | SampleType.unSignedInt =>
    if bits = 16 then Except.ok (ConverterChoice.intConverter false 16)
    else if bits = 32 then Except.ok (ConverterChoice.intConverter false 32)
    else Except.error "unsupported sample format: u"
  | SampleType.float =>
    if bits = 32 then Except.ok ConverterChoice.passThrough
    else Except.error "unsupported sample format: f"
  | SampleType.unknown => Except.error "unknown sample format"

/-! ## Mono downmix (src/engine.cpp lines 611-661) -/

/-- Channel downmix, `AudioPipe::downmix_to_mono`: the destination holds
`src.size() / channels` frames and frame `i` is the plain sum of the
`channels` samples of that frame (no averaging). -/
def downmix_to_mono (src : List ℚ) (channels : ℕ) : List ℚ :=
  (List.range (src.length / channels)).map fun i =>
    ((List.range channels).map fun j => src.getD (i * channels + j) 0).sum

/-- Mono sequence of the SampleBlock published by `AudioPipe::run`: the
loop only calls `downmix_to_mono` when `channels > 1`; otherwise the
freshly default-constructed `block->mono_samples` is left empty. -/
def pipe_publish_mono (captured : List ℚ) (channels : ℕ) : List ℚ :=
  if 1 < channels then downmix_to_mono captured channels else []

/-! ## Analysis window (src/engine.cpp lines 351-361) -/

/-- First Blackman-Nuttall coefficient used by `FFTProcessor::make_window`. -/
def wa0 : ℝ := 0.3635819

/-- Second Blackman-Nuttall coefficient used by `FFTProcessor::make_window`. -/
def wa1 : ℝ := 0.4891775

/-- Third Blackman-Nuttall coefficient used by `FFTProcessor::make_window`. -/
def wa2 : ℝ := 0.1365995

/-- Fourth Blackman-Nuttall coefficient used by `FFTProcessor::make_window`. -/
def wa3 : ℝ := 0.0106411

/-- Window entry `dest[n]` as `FFTProcessor::make_window` computes it for a
transform of size `N`.  Note the sign of the last term: the source adds
`a3*cos(6*pi*n/(N-1))`. -/
noncomputable def make_window (N : ℕ) (n : ℕ) : ℝ :=
  wa0 - wa1 * Real.cos (2 * Real.pi * n / (N - 1 : ℕ))
    + wa2 * Real.cos (4 * Real.pi * n / (N - 1 : ℕ))
    + wa3 * Real.cos (6 * Real.pi * n / (N - 1 : ℕ))

/-- Window entry as the specification words it (four-term window with the
last cosine term subtracted), for comparison with `make_window`. -/
noncomputable def spec_window (N : ℕ) (n : ℕ) : ℝ :=
  wa0 - wa1 * Real.cos (2 * Real.pi * n / (N - 1 : ℕ))
    + wa2 * Real.cos (4 * Real.pi * n / (N - 1 : ℕ))
    - wa3 * Real.cos (6 * Real.pi * n / (N - 1 : ℕ))

/-! ## TimedDataQueue (src/engine.h lines 121-159) -/

/-- One timestamped item held by `TimedDataQueue` (the template's `data_t`
derives `TimestampedData`, so it carries a clock time `t`; the payload
stands for the rest of the data). -/
structure TimedItem where
  t : ℤ
  payload : ℕ
deriving DecidableEq

/-- Drain loop of `TimedDataQueue::fetch_up_to`: while the queue's front
item's timestamp is at most `now`, move it to the output (first component,
in delivery order) and pop it; the second component is the remaining
queue. -/
def fetch_up_to (now : ℤ) : List TimedItem → List TimedItem × List TimedItem
  | [] => ([], [])
  | b :: rest =>
    if b.t ≤ now then
      let r := fetch_up_to now rest
      (b :: r.1, r.2)
    else ([], b :: rest)

/-- Bounded insertion, `TimedDataQueue::push_block`: when the queue already
holds at least `max_blocks` items the front is popped first.  `std::queue::pop`
on an empty queue is undefined behaviour, embedded as `none`. -/
def push_block (max_blocks : ℕ) (q : List TimedItem) (x : TimedItem) :
    Option (List TimedItem) :=
  if max_blocks ≤ q.length then
    match q with
    | [] => none
    | _ :: rest => some (rest ++ [x])
  else some (q ++ [x])

/-- Folding `push_block` over a whole sequence of pushes, starting from an
empty queue. -/
def push_all (max_blocks : ℕ) (xs : List TimedItem) : Option (List TimedItem) :=
  xs.foldl (fun acc x => acc.bind fun q => push_block max_blocks q x) (some [])

/-! ## AudioOutputDriver (src/engine.cpp lines 468-570)

The overflow state mutated by `write_samples` and read by `time` (under
`m_time_mutex`): the residual overflow buffer `m_outer_buffer`, the
accumulated dropped-time correction `m_dropped` and the overflow-buffer
delay `m_outer_buffer_delay`, the two latter in microseconds.  The device
sink (`m_sink->write`) accepts some number of the offered samples; the
amounts it accepts in the drain step and in the direct-write step enter
the embedding as the parameters `w1` and `w2`. -/

/-- Overflow bookkeeping state of `AudioOutputDriver`. -/
structure OutDriverState where
  outer_buffer : List ℚ
  dropped : ℕ
  outer_buffer_delay : ℕ
deriving DecidableEq

/-- Recomputation of the overflow delay, `AudioOutputDriver::update_buffer_delay`:
the buffered sample count scaled to microseconds at the device rate. -/
def update_buffer_delay (rate : ℕ) (buf : List ℚ) : ℕ :=
  buf.length * 1000000 / rate

/-- One call of `AudioOutputDriver::write_samples`.  `drop_samples` is the
precomputed drop threshold `m_drop_msecs * sampleRate / 1000`; `w1` is the
number of overflow samples the device accepts in the initial drain, `w2`
the number of new samples it accepts in the direct write (each bounded by
what was offered).  First the old overflow is drained; if a residue
remains and, combined with the new block, reaches the drop threshold, the
whole residue and the new block are discarded and their duration is added
to `dropped`; otherwise the new block is appended to the residue.  With no
residue the new block is written directly and any unwritten tail becomes
the new overflow buffer. -/
def write_samples (rate drop_samples : ℕ) (st : OutDriverState)
    (samples : List ℚ) (w1 w2 : ℕ) : OutDriverState :=
  let buf1 := st.outer_buffer.drop w1
  if buf1 ≠ [] then
    let total_samples := buf1.length + samples.length
    if drop_samples ≤ total_samples then
      { outer_buffer := []
        dropped := st.dropped + total_samples * 1000000 / rate
        outer_buffer_delay := 0 }
    else
      { outer_buffer := buf1 ++ samples
        dropped := st.dropped
        outer_buffer_delay := update_buffer_delay rate (buf1 ++ samples) }
  else
    let rescued := samples.drop w2
    { outer_buffer := rescued
      dropped := st.dropped
      outer_buffer_delay := update_buffer_delay rate rescued }

/-- The sink clock, `AudioOutputDriver::time`: stream start `t0` plus the
device-reported processed microseconds, minus the device buffer delay and
the overflow-buffer delay, plus the accumulated dropped time (all read in
one snapshot under the reader/writer lock). -/
def driver_time (t0 processed buffer_delay : ℤ) (st : OutDriverState) : ℤ :=
  t0 + processed - buffer_delay - (st.outer_buffer_delay : ℤ) + (st.dropped : ℤ)

/-! ## RMSProcessor (src/engine.cpp lines 260-308)

StreamingLevel's state: the sample rate of the current run of blocks, the
accumulation buffer, the timestamp base `m_t0` (microseconds), the 32-slot
peak backlog and its write index.  The while loop of `process_samples`
runs as long as the buffer holds at least `sample_rate / 10` samples; when
`sample_rate < 10` that bound is `0` and the source loop never terminates
(it repeatedly erases zero samples), so the embedding guards the loop with
`0 < per_block` and agrees with the source on every terminating run. -/

/-- One emitted RMSBlock: timestamp, current RMS, recent peak. -/
structure LevelBlock where
  t : ℤ
  curr : ℝ
  recent_peak : ℝ

/-- State of `RMSProcessor` between calls. -/
structure RMSState where
  sample_rate : ℕ
  buffer : List ℝ
  t0 : ℤ
  backlog : List ℝ
  backlog_idx : ℕ

/-- One incoming SampleBlock as the RMS processor sees it. -/
structure RMSIn where
  t : ℤ
  sample_rate : ℕ
  samples : List ℝ

/-- Result of the emission loop: the emitted blocks in order plus the
final buffer, backlog, backlog index and processed-sample counter. -/
structure RMSLoopOut where
  emitted : List LevelBlock
  buffer : List ℝ
  backlog : List ℝ
  backlog_idx : ℕ
  processed : ℕ

/-- Peak over the backlog, `RMSProcessor::get_recent_peak`: a running
`max` starting from `0` over all 32 slots. -/
noncomputable def get_recent_peak (backlog : List ℝ) : ℝ :=
  backlog.foldl max 0

/-- Emission loop of `RMSProcessor::process_samples`: while the buffer
holds at least `per_block` samples, compute the RMS of the first
`per_block` samples, stamp it at `t0` plus the processed-sample
count scaled to microseconds, record it in the backlog slot at the write
index (index advances modulo 32), emit the block with
`recent_peak = get_recent_peak` of the updated backlog, and erase the
consumed samples from the front. -/
noncomputable def rms_loop (rate per_block : ℕ) (t0 : ℤ) :
    List ℝ → List ℝ → ℕ → ℕ → RMSLoopOut
  | buffer, backlog, idx, processed =>
    if _h : per_block ≤ buffer.length ∧ 0 < per_block then
      let rms := Real.sqrt
        ((((buffer.take per_block).map fun x => x * x).sum) / per_block)
      let backlog' := backlog.set idx rms
      let blk : LevelBlock :=
        { t := t0 + (processed * 1000000 / rate : ℕ)
          curr := rms
          recent_peak := get_recent_peak backlog' }
      let r := rms_loop rate per_block t0 (buffer.drop per_block) backlog'
        ((idx + 1) % 32) (processed + per_block)
      { r with emitted := blk :: r.emitted }
    else
      { emitted := [], buffer := buffer, backlog := backlog
        backlog_idx := idx, processed := processed }
  termination_by buffer _ _ _ => buffer.length
  decreasing_by
    simp only [List.length_drop]
    omega

/-- One call of `RMSProcessor::process_samples`: when the buffer is empty
or the sample rate changed, restart the accumulation from the incoming
block (adopting its rate and capture time as the new base); otherwise
append the incoming samples.  Then run the emission loop and advance the
timestamp base by the processed duration. -/
noncomputable def rms_process (st : RMSState) (blk : RMSIn) :
    RMSState × List LevelBlock :=
  let st1 : RMSState :=
    if st.buffer = [] ∨ st.sample_rate ≠ blk.sample_rate then
      { sample_rate := blk.sample_rate, buffer := blk.samples, t0 := blk.t
        backlog := st.backlog, backlog_idx := st.backlog_idx }
    else
      { st with buffer := st.buffer ++ blk.samples }
  let r := rms_loop st1.sample_rate (st1.sample_rate / 10) st1.t0
    st1.buffer st1.backlog st1.backlog_idx 0
  ({ sample_rate := st1.sample_rate
     buffer := r.buffer
     t0 := st1.t0 + (r.processed * 1000000 / st1.sample_rate : ℕ)
     backlog := r.backlog
     backlog_idx := r.backlog_idx }, r.emitted)

/-- Feeding a stream of equally-timed blocks of one sample rate through
`rms_process` from the given state, collecting every emitted LevelBlock. -/
noncomputable def rms_feed (rate : ℕ) (st : RMSState) :
    List (List ℝ) → RMSState × List LevelBlock
  | [] => (st, [])
  | b :: bs =>
    let r := rms_process st { t := 0, sample_rate := rate, samples := b }
    let rest := rms_feed rate r.1 bs
    (rest.1, r.2 ++ rest.2)

/-- Fresh `RMSProcessor` state: zeroed backlog (`m_backlog{0}`), write
index `0`, empty buffer. -/
def rms_fresh : RMSState :=
  { sample_rate := 0, buffer := [], t0 := 0
    backlog := List.replicate 32 0, backlog_idx := 0 }

/-! ## FFTProcessor (src/engine.cpp lines 363-422)

StreamingSpectrum's per-call state machine.  The actual transform
(`fftw_execute` followed by magnitude extraction and normalisation) is the
external fftw library; what the claims are about is which samples feed
each transform and how timestamps advance, so an emitted block here
carries the timestamp, `fmax`, and the chunk of `m_size` buffered samples
whose windowed image is handed to the transform.  The hop size `shift`
(`m_period_msec * m_sample_rate / 1000` in the source) enters as a
parameter; when it is `0` the source's while loop erases zero samples and
never terminates, so the embedding guards the loop with `0 < shift` and
agrees with the source on every terminating run. -/

/-- One emitted spectrum analysis: timestamp, Nyquist frequency, and the
`m_size` input samples of this transform (the source emits
`abs (FFT (window * chunk)) / norm` of them). -/
structure FFTBlock where
  t : ℤ
  fmax : ℚ
  chunk : List ℚ
deriving DecidableEq

/-- State of `FFTProcessor` between calls. -/
structure FFTState where
  sample_rate : ℕ
  t : ℤ
  shift_remaining : ℕ
  in_buffer : List ℚ
deriving DecidableEq

/-- One incoming SampleBlock as the FFT processor sees it. -/
structure FFTIn where
  t : ℤ
  sample_rate : ℕ
  samples : List ℚ
deriving DecidableEq

/-- Result of the FFT emission loop: emitted blocks plus the final
timestamp base, buffer and shift remainder. -/
structure FFTLoopOut where
  emitted : List FFTBlock
  t : ℤ
  in_buffer : List ℚ
  shift_remaining : ℕ
deriving DecidableEq

/-- Emission loop of `FFTProcessor::process_samples`: while the buffer
holds at least `size` samples, emit the transform of the first `size`
samples stamped at the running base time; then, if the hop `shift` reaches
the buffered length, clear the buffer, advance the base by the buffered
duration and record the unconsumed hop as shift remainder, else erase the
first `shift` samples and advance the base by their duration. -/
def fft_loop (size shift rate : ℕ) : ℤ → List ℚ → FFTLoopOut
  | t, buf =>
    if _h : size ≤ buf.length ∧ 0 < shift then
      let blk : FFTBlock := { t := t, fmax := (rate : ℚ) / 2, chunk := buf.take size }
      if buf.length ≤ shift then
        { emitted := [blk]
          t := t + (buf.length * 1000000 / rate : ℕ)
          in_buffer := []
          shift_remaining := shift - buf.length }
      else
        let r := fft_loop size shift rate (t + (shift * 1000000 / rate : ℕ))
          (buf.drop shift)
        { r with emitted := blk :: r.emitted }
    else
      { emitted := [], t := t, in_buffer := buf, shift_remaining := 0 }
  termination_by _ buf => buf.length
  decreasing_by
    simp only [List.length_drop]
    omega

/-- One call of `FFTProcessor::process_samples` with hop size `shift`.  On
a sample-rate change the accumulation buffer is cleared, the rate adopted,
the timestamp base re-based to the block's capture time and the shift
remainder cleared; an empty buffer also re-bases the timestamp (resync).
A shift remainder covering the whole block consumes it outright.
Otherwise the post-remainder samples are appended, the base advanced by
the consumed remainder, and the emission loop runs. -/
def fft_process (size shift : ℕ) (st : FFTState) (blk : FFTIn) :
    FFTState × List FFTBlock :=
  let st1 : FFTState :=
    if st.sample_rate ≠ blk.sample_rate then
      { sample_rate := blk.sample_rate, t := blk.t, shift_remaining := 0
        in_buffer := [] }
    else st
  let st2 : FFTState := if st1.in_buffer = [] then { st1 with t := blk.t } else st1
  if 0 < st2.shift_remaining ∧ blk.samples.length ≤ st2.shift_remaining then
    ({ st2 with
        shift_remaining := st2.shift_remaining - blk.samples.length
        t := st2.t + (blk.samples.length * 1000000 / st2.sample_rate : ℕ) }, [])
  else
    let buf := st2.in_buffer ++ blk.samples.drop st2.shift_remaining
    let t1 := st2.t + (st2.shift_remaining * 1000000 / st2.sample_rate : ℕ)
    let r := fft_loop size shift st2.sample_rate t1 buf
    ({ sample_rate := st2.sample_rate, t := r.t
       shift_remaining := r.shift_remaining, in_buffer := r.in_buffer },
     r.emitted)

/-- State the resync branch of `FFTProcessor::process_samples` installs
for an incoming block: the block's rate and capture time, no pending
shift, empty buffer. -/
def fft_fresh (blk : FFTIn) : FFTState :=
  { sample_rate := blk.sample_rate, t := blk.t, shift_remaining := 0
    in_buffer := [] }

/-! ## Theorems -/

/-- C4: at every point while the device sink is running,
`AudioOutputDriver::time()` returns exactly stream start time plus
device-processed microseconds minus (device buffer delay plus
overflow-buffer delay) plus accumulated dropped time. -/
theorem C4_sink_time_formula (t0 processed buffer_delay : ℤ)
    (st : OutDriverState) :
    driver_time t0 processed buffer_delay st =
      t0 + processed - (buffer_delay + (st.outer_buffer_delay : ℤ))
        + (st.dropped : ℤ) := by
  unfold driver_time
  ring

/-- C10: for capacity at least one, the eviction branch of
`TimedDataQueue::push_block` only ever pops a non-empty queue (the
embedded push never hits the undefined pop, i.e. never returns `none`);
for capacity zero, the very first push on an empty queue pops an empty
`std::queue` (embedded as `none`), so capacity at least one is a
necessary precondition. -/
theorem C10_push_block_pop_safety :
    (∀ (K : ℕ) (q : List TimedItem) (x : TimedItem), 1 ≤ K →
      (push_block K q x).isSome) ∧
    push_block 0 [] ⟨0, 0⟩ = none := by
  refine ⟨?_, by simp [push_block]⟩
  intro K q x hK
  unfold push_block
  by_cases h : K ≤ q.length
  · cases q with
    | nil => simp at h; omega
    | cons a t =>
      have h' : K ≤ t.length + 1 := by simpa using h
      simp [h']
  · simp [h]

/-- Concrete instantiation of `C10_push_block_pop_safety`: capacity 1. -/
theorem C10_push_block_pop_safety_witness :
    1 ≤ 1 ∧ (push_block 1 [⟨0, 0⟩] ⟨1, 1⟩).isSome :=
  ⟨le_refl 1, C10_push_block_pop_safety.1 1 [⟨0, 0⟩] ⟨1, 1⟩ (le_refl 1)⟩

/-- C2: the window `FFTProcessor::make_window` computes differs from the
four-term window of the specification in the sign of the last term: at
`N = 2`, `n = 0` (every cosine argument is zero) the source yields
`a0 - a1 + a2 + a3` where the specification's formula demands
`a0 - a1 + a2 - a3`. -/
theorem C2_window_sign_mismatch :
    make_window 2 0 = wa0 - wa1 + wa2 + wa3 ∧
    make_window 2 0 ≠ spec_window 2 0 := by
  constructor
  · unfold make_window
    norm_num
  · unfold make_window spec_window
    norm_num [wa0, wa1, wa2, wa3]

/-- C1: `AudioPipe::run` publishes an empty mono sequence for a mono
(single-channel) capture — the downmix only runs when `channels > 1` —
although for two or more channels the published mono sequence does have
one entry per frame, each the plain sum of that frame's channel samples. -/
theorem C1_publish_mono_empty_for_mono_capture :
    (pipe_publish_mono [(1 : ℚ)] 1 = [] ∧ ([(1 : ℚ)] : List ℚ) ≠ []) ∧
    ∀ (channels : ℕ) (src : List ℚ), 2 ≤ channels →
      (pipe_publish_mono src channels).length = src.length / channels ∧
      (src ≠ [] → channels ∣ src.length → pipe_publish_mono src channels ≠ []) ∧
      ∀ i, i < src.length / channels →
        (pipe_publish_mono src channels).getD i 0 =
          ((List.range channels).map fun j => src.getD (i * channels + j) 0).sum := by
  constructor
  · constructor
    · simp [pipe_publish_mono]
    · simp
  · intro channels src hch
    have h1 : 1 < channels := by omega
    unfold pipe_publish_mono downmix_to_mono
    rw [if_pos h1]
    refine ⟨by simp, ?_, ?_⟩
    · intro hne hdvd
      have hlen : 0 < src.length := List.length_pos.mpr hne
      have : 0 < src.length / channels := Nat.div_pos (Nat.le_of_dvd hlen hdvd) (by omega)
      simp only [ne_eq, List.map_eq_nil_iff, List.range_eq_nil]
      omega
    · intro i hi
      rw [List.getD_eq_getElem?_getD, List.getElem?_map, List.getElem?_range hi]
      simp

/-- Concrete instantiation of `C1_publish_mono_empty_for_mono_capture`
for a stereo block. -/
theorem C1_publish_mono_empty_for_mono_capture_witness :
    2 ≤ 2 ∧
    ((pipe_publish_mono [(3 : ℚ), 4] 2).length = ([(3 : ℚ), 4] : List ℚ).length / 2 ∧
      (([(3 : ℚ), 4] : List ℚ) ≠ [] → 2 ∣ ([(3 : ℚ), 4] : List ℚ).length →
        pipe_publish_mono [(3 : ℚ), 4] 2 ≠ []) ∧
      ∀ i, i < ([(3 : ℚ), 4] : List ℚ).length / 2 →
        (pipe_publish_mono [(3 : ℚ), 4] 2).getD i 0 =
          ((List.range 2).map fun j => ([(3 : ℚ), 4] : List ℚ).getD (i * 2 + j) 0).sum) :=
  ⟨le_refl 2, C1_publish_mono_empty_for_mono_capture.2 2 [(3 : ℚ), 4] (le_refl 2)⟩

/-- C3: when, after the initial drain, the residual overflow buffer is
still non-empty and together with the new block strictly exceeds the drop
threshold, `AudioOutputDriver::write_samples` clears the whole overflow
buffer, adds the dropped samples' duration to the dropped-time
correction, zeroes the overflow-buffer delay, and a subsequent `time()`
(same device-progress reading) does not regress. -/
theorem C3_drop_policy (rate drop_samples : ℕ) (st : OutDriverState)
    (samples : List ℚ) (w1 w2 : ℕ)
    (hres : st.outer_buffer.drop w1 ≠ [])
    (hdrop : drop_samples < (st.outer_buffer.drop w1).length + samples.length) :
    (write_samples rate drop_samples st samples w1 w2).outer_buffer = [] ∧
    (write_samples rate drop_samples st samples w1 w2).dropped =
      st.dropped +
        ((st.outer_buffer.drop w1).length + samples.length) * 1000000 / rate ∧
    (write_samples rate drop_samples st samples w1 w2).outer_buffer_delay = 0 ∧
    ∀ t0 processed buffer_delay : ℤ,
      driver_time t0 processed buffer_delay st ≤
        driver_time t0 processed buffer_delay
          (write_samples rate drop_samples st samples w1 w2) := by
  have hcond : drop_samples ≤ (st.outer_buffer.drop w1).length + samples.length :=
    le_of_lt hdrop
  unfold write_samples
  rw [if_pos hres, if_pos hcond]
  refine ⟨rfl, rfl, rfl, ?_⟩
  intro t0 processed buffer_delay
  unfold driver_time
  dsimp only
  rw [Nat.cast_add, Nat.cast_zero]
  have h1 : (0 : ℤ) ≤
      ((((st.outer_buffer.drop w1).length + samples.length) * 1000000 / rate : ℕ) : ℤ) :=
    Nat.cast_nonneg _
  have h2 : (0 : ℤ) ≤ (st.outer_buffer_delay : ℤ) := Nat.cast_nonneg _
  linarith

/-- Concrete instantiation of `C3_drop_policy`: threshold 2, a residual
overflow of 2 samples and a new block of 1 sample. -/
theorem C3_drop_policy_witness :
    (([(1 : ℚ), 2, 3] : List ℚ).drop 1 ≠ [] ∧
      2 < (([(1 : ℚ), 2, 3] : List ℚ).drop 1).length + ([(5 : ℚ)] : List ℚ).length) ∧
    ((write_samples 1000 2 ⟨[(1 : ℚ), 2, 3], 7, 11⟩ [(5 : ℚ)] 1 0).outer_buffer = [] ∧
      (write_samples 1000 2 ⟨[(1 : ℚ), 2, 3], 7, 11⟩ [(5 : ℚ)] 1 0).dropped =
        7 + ((([(1 : ℚ), 2, 3] : List ℚ).drop 1).length +
          ([(5 : ℚ)] : List ℚ).length) * 1000000 / 1000 ∧
      (write_samples 1000 2 ⟨[(1 : ℚ), 2, 3], 7, 11⟩ [(5 : ℚ)] 1 0).outer_buffer_delay = 0 ∧
      ∀ t0 processed buffer_delay : ℤ,
        driver_time t0 processed buffer_delay ⟨[(1 : ℚ), 2, 3], 7, 11⟩ ≤
          driver_time t0 processed buffer_delay
            (write_samples 1000 2 ⟨[(1 : ℚ), 2, 3], 7, 11⟩ [(5 : ℚ)] 1 0)) :=
  ⟨⟨by simp, by simp⟩,
    C3_drop_policy 1000 2 ⟨[(1 : ℚ), 2, 3], 7, 11⟩ [(5 : ℚ)] 1 0 (by simp) (by simp)⟩

/-- C8: for each supported integer format (signed or unsigned, 16 or 32
bit) every sample `v` is mapped to `(v - min) / (max - min) * 2 - 1`, the
minimum representable integer maps exactly to `-1` and the maximum exactly
to `1`; converter selection succeeds exactly for signed/unsigned 16- and
32-bit integers and 32-bit float (the pass-through), and every other
width or encoding raises the fatal error. -/
theorem C8_sample_format_mapping :
    (∀ (signed : Bool) (bits : ℕ), bits = 16 ∨ bits = 32 →
      sample_convert signed bits (int_min signed bits) = -1 ∧
      sample_convert signed bits (int_max signed bits) = 1 ∧
      ∀ v : ℤ, sample_convert signed bits v =
        ((v : ℚ) - (int_min signed bits : ℚ)) /
          ((int_max signed bits : ℚ) - (int_min signed bits : ℚ)) * 2 - 1) ∧
    ∀ (sample_type : SampleType) (bits : ℕ),
      (∃ c, make_converter sample_type bits = Except.ok c) ↔
        ((sample_type = SampleType.signedInt ∨
            sample_type = SampleType.unSignedInt) ∧ (bits = 16 ∨ bits = 32)) ∨
          (sample_type = SampleType.float ∧ bits = 32) := by
  constructor
  · intro signed bits hbits
    refine ⟨?_, ?_, ?_⟩
    · rcases hbits with h | h <;> subst h <;> cases signed <;>
        norm_num [sample_convert, sample_range, int_min, int_max]
    · rcases hbits with h | h <;> subst h <;> cases signed <;>
        norm_num [sample_convert, sample_range, int_min, int_max]
    · intro v
      unfold sample_convert sample_range
      rfl
  · intro sample_type bits
    cases sample_type <;>
      by_cases h16 : bits = 16 <;> by_cases h32 : bits = 32 <;>
        simp [make_converter, h16, h32]

/-- Concrete instantiation of `C8_sample_format_mapping`: signed 16-bit. -/
theorem C8_sample_format_mapping_witness :
    ((16 : ℕ) = 16 ∨ (16 : ℕ) = 32) ∧
    (sample_convert true 16 (int_min true 16) = -1 ∧
      sample_convert true 16 (int_max true 16) = 1 ∧
      ∀ v : ℤ, sample_convert true 16 v =
        ((v : ℚ) - (int_min true 16 : ℚ)) /
          ((int_max true 16 : ℚ) - (int_min true 16 : ℚ)) * 2 - 1) :=
  ⟨Or.inl rfl, C8_sample_format_mapping.1 true 16 (Or.inl rfl)⟩

/-- C6: `fetch_up_to` delivers, in FIFO order, exactly the maximal front
run of items whose timestamp is at most the clock value (the Boolean
take-while of the queue), removes exactly those from the queue, never
delivers an item stamped in the future, and stops at the first item whose
timestamp is still in the future, leaving it and everything behind it
unchanged. -/
theorem C6_fetch_up_to_front_run (now : ℤ) (q : List TimedItem) :
    (fetch_up_to now q).1 = q.takeWhile (fun b => decide (b.t ≤ now)) ∧
    (fetch_up_to now q).2 = q.dropWhile (fun b => decide (b.t ≤ now)) ∧
    (∀ b ∈ (fetch_up_to now q).1, b.t ≤ now) ∧
    (fetch_up_to now q).1 ++ (fetch_up_to now q).2 = q ∧
    ∀ b, (fetch_up_to now q).2.head? = some b → now < b.t := by
  induction q with
  | nil => simp [fetch_up_to]
  | cons a rest ih =>
    by_cases h : a.t ≤ now
    · obtain ⟨ih1, ih2, ih3, ih4, ih5⟩ := ih
      refine ⟨?_, ?_, ?_, ?_, ?_⟩
      · simp [fetch_up_to, h, List.takeWhile_cons, ih1]
      · simp [fetch_up_to, h, List.dropWhile_cons, ih2]
      · intro b hb
        simp only [fetch_up_to, if_pos h, List.mem_cons] at hb
        rcases hb with hb | hb
        · exact hb ▸ h
        · exact ih3 b hb
      · simp only [fetch_up_to, if_pos h, List.cons_append, ih4]
      · intro b hb
        simp only [fetch_up_to, if_pos h] at hb
        exact ih5 b hb
    · refine ⟨?_, ?_, ?_, ?_, ?_⟩
      · simp [fetch_up_to, h, List.takeWhile_cons]
      · simp [fetch_up_to, h, List.dropWhile_cons]
      · intro b hb
        simp [fetch_up_to, h] at hb
      · simp [fetch_up_to, h]
      · intro b hb
        simp only [fetch_up_to, if_neg h, List.head?_cons, Option.some.injEq] at hb
        subst hb
        omega

/-- Concrete instantiation of `C6_fetch_up_to_front_run`: one past and one
future item. -/
theorem C6_fetch_up_to_front_run_witness :
    (fetch_up_to 5 [⟨3, 0⟩, ⟨9, 1⟩]).1 =
        ([⟨3, 0⟩, ⟨9, 1⟩] : List TimedItem).takeWhile (fun b => decide (b.t ≤ 5)) ∧
    (fetch_up_to 5 [⟨3, 0⟩, ⟨9, 1⟩]).2 =
        ([⟨3, 0⟩, ⟨9, 1⟩] : List TimedItem).dropWhile (fun b => decide (b.t ≤ 5)) ∧
    (∀ b ∈ (fetch_up_to 5 [⟨3, 0⟩, ⟨9, 1⟩]).1, b.t ≤ 5) ∧
    (fetch_up_to 5 [⟨3, 0⟩, ⟨9, 1⟩]).1 ++ (fetch_up_to 5 [⟨3, 0⟩, ⟨9, 1⟩]).2 =
        [⟨3, 0⟩, ⟨9, 1⟩] ∧
    ∀ b, (fetch_up_to 5 [⟨3, 0⟩, ⟨9, 1⟩]).2.head? = some b → 5 < b.t :=
  C6_fetch_up_to_front_run 5 [⟨3, 0⟩, ⟨9, 1⟩]

/-- Folding `push_block` from an arbitrary queue no longer than the
capacity keeps, of queue-then-pushes, exactly the newest `max_blocks`
items in order. -/
theorem push_block_foldl (K : ℕ) (hK : 1 ≤ K) :
    ∀ (xs : List TimedItem) (q : List TimedItem), q.length ≤ K →
      xs.foldl (fun acc x => acc.bind fun q' => push_block K q' x) (some q) =
        some ((q ++ xs).drop (q.length + xs.length - K)) := by
  intro xs
  induction xs with
  | nil =>
    intro q hq
    simp only [List.foldl_nil, List.append_nil, List.length_nil, Nat.add_zero]
    have : q.length - K = 0 := by omega
    rw [this, List.drop_zero]
  | cons x xs ih =>
    intro q hq
    by_cases hfull : K ≤ q.length
    · have hlen : q.length = K := le_antisymm hq hfull
      cases q with
      | nil => simp at hlen; omega
      | cons a t =>
        have hpush : push_block K (a :: t) x = some (t ++ [x]) := by
          unfold push_block
          rw [if_pos (by simpa using hfull)]
        simp only [List.foldl_cons, Option.some_bind, hpush]
        have ht : (t ++ [x]).length ≤ K := by
          simp only [List.length_cons] at hlen
          simp only [List.length_append, List.length_cons, List.length_nil]
          omega
        rw [ih (t ++ [x]) ht]
        have hx : (t ++ [x]).length + xs.length - K = xs.length := by
          simp only [List.length_cons] at hlen
          simp only [List.length_append, List.length_cons, List.length_nil]
          omega
        have hy : (a :: t).length + (x :: xs).length - K = xs.length + 1 := by
          simp only [List.length_cons] at hlen
          simp only [List.length_cons]
          omega
        rw [hx, hy]
        simp only [List.append_assoc, List.singleton_append, List.cons_append,
          List.drop_succ_cons, List.nil_append]
    · have hpush : push_block K q x = some (q ++ [x]) := by
        unfold push_block
        rw [if_neg hfull]
      simp only [List.foldl_cons, Option.some_bind, hpush]
      have ht : (q ++ [x]).length ≤ K := by
        simp only [List.length_append, List.length_cons, List.length_nil]
        omega
      rw [ih (q ++ [x]) ht]
      have hx : (q ++ [x]).length + xs.length - K = q.length + (x :: xs).length - K := by
        simp only [List.length_append, List.length_cons, List.length_nil]
        omega
      rw [hx]
      simp only [List.append_assoc, List.singleton_append]

/-- C7: with capacity at least one, pushing onto a full queue evicts
exactly the oldest item (the tail plus the new item survives); after any
sequence of pushes from empty, the queue is exactly the newest
at-most-`K` pushed items — never more than `K`, in their original FIFO
order (a suffix of the push sequence). -/
theorem C7_push_drop_oldest (K : ℕ) (hK : 1 ≤ K) :
    (∀ (q : List TimedItem) (x : TimedItem), q.length = K →
      push_block K q x = some (q.tail ++ [x])) ∧
    ∀ xs : List TimedItem,
      push_all K xs = some (xs.drop (xs.length - K)) ∧
      (xs.drop (xs.length - K)).length ≤ K ∧
      (xs.drop (xs.length - K)) <:+ xs := by
  constructor
  · intro q x hq
    cases q with
    | nil => simp at hq; omega
    | cons a t =>
      unfold push_block
      rw [if_pos (le_of_eq hq.symm)]
      rfl
  · intro xs
    have h := push_block_foldl K hK xs [] (by simp)
    unfold push_all
    rw [h]
    refine ⟨by simp, ?_, List.drop_suffix _ _⟩
    simp only [List.length_drop]
    omega

/-- Concrete instantiation of `C7_push_drop_oldest`: capacity 2, three
pushes. -/
theorem C7_push_drop_oldest_witness :
    1 ≤ 2 ∧
    ((∀ (q : List TimedItem) (x : TimedItem), q.length = 2 →
        push_block 2 q x = some (q.tail ++ [x])) ∧
      ∀ xs : List TimedItem,
        push_all 2 xs = some (xs.drop (xs.length - 2)) ∧
        (xs.drop (xs.length - 2)).length ≤ 2 ∧
        (xs.drop (xs.length - 2)) <:+ xs) :=
  ⟨by omega, C7_push_drop_oldest 2 (by omega)⟩

/-- Chunks fed to the transform by the FFT emission loop are contiguous
slices of the loop's input buffer. -/
theorem fft_loop_chunk_slices (size shift rate : ℕ) :
    ∀ (n : ℕ) (buf : List ℚ), buf.length ≤ n → ∀ (t : ℤ),
      ∀ b ∈ (fft_loop size shift rate t buf).emitted,
        ∃ k, b.chunk = (buf.drop k).take size := by
  intro n
  induction n with
  | zero =>
    intro buf hbuf t b hb
    rw [fft_loop] at hb
    by_cases h : size ≤ buf.length ∧ 0 < shift
    · rw [dif_pos h] at hb
      by_cases h2 : buf.length ≤ shift
      · rw [if_pos h2] at hb
        simp only [List.mem_singleton] at hb
        subst hb
        exact ⟨0, by simp⟩
      · omega
    · rw [dif_neg h] at hb
      simp at hb
  | succ n ih =>
    intro buf hbuf t b hb
    rw [fft_loop] at hb
    by_cases h : size ≤ buf.length ∧ 0 < shift
    · rw [dif_pos h] at hb
      by_cases h2 : buf.length ≤ shift
      · rw [if_pos h2] at hb
        simp only [List.mem_singleton] at hb
        subst hb
        exact ⟨0, by simp⟩
      · rw [if_neg h2] at hb
        simp only [List.mem_cons] at hb
        rcases hb with rfl | hb
        · exact ⟨0, by simp⟩
        · have hlen : (buf.drop shift).length ≤ n := by
            simp only [List.length_drop]
            omega
          obtain ⟨k, hk⟩ := ih (buf.drop shift) hlen _ b hb
          refine ⟨k + shift, ?_⟩
          rw [hk, List.drop_drop, Nat.add_comm shift k]
    · rw [dif_neg h] at hb
      simp at hb

/-- C9: when an incoming block's sample rate differs from the previous
one, `FFTProcessor::process_samples` behaves exactly as if started from
the cleared state (empty accumulation buffer, zero shift remainder,
timestamp re-based to the incoming block's capture time, new rate), and
every spectrum it emits during that call is computed from a contiguous
slice of the new block's samples alone — no emission mixes samples of
two different sample rates. -/
theorem C9_spectrum_resync (size shift : ℕ) (st : FFTState) (blk : FFTIn)
    (hrate : st.sample_rate ≠ blk.sample_rate) :
    fft_process size shift st blk = fft_process size shift (fft_fresh blk) blk ∧
    ∀ b ∈ (fft_process size shift st blk).2,
      ∃ k, b.chunk = (blk.samples.drop k).take size := by
  have ha : fft_process size shift st blk =
      fft_process size shift (fft_fresh blk) blk := by
    unfold fft_process fft_fresh
    rw [if_pos hrate]
    simp
  refine ⟨ha, ?_⟩
  rw [ha]
  have hemit : (fft_process size shift (fft_fresh blk) blk).2 =
      (fft_loop size shift blk.sample_rate
        (blk.t + ((0 * 1000000 / blk.sample_rate : ℕ) : ℤ)) blk.samples).emitted := by
    unfold fft_process fft_fresh
    simp
  rw [hemit]
  exact fft_loop_chunk_slices size shift blk.sample_rate blk.samples.length
    blk.samples (le_refl _) _

/-- Concrete instantiation of `C9_spectrum_resync`: a rate change from 1
to 2 with stale buffered samples and a pending shift remainder. -/
theorem C9_spectrum_resync_witness :
    (FFTState.mk 1 5 3 [9]).sample_rate ≠ (FFTIn.mk 100 2 [1, 2, 3]).sample_rate ∧
    (fft_process 2 1 (FFTState.mk 1 5 3 [9]) (FFTIn.mk 100 2 [1, 2, 3]) =
        fft_process 2 1 (fft_fresh (FFTIn.mk 100 2 [1, 2, 3])) (FFTIn.mk 100 2 [1, 2, 3]) ∧
      ∀ b ∈ (fft_process 2 1 (FFTState.mk 1 5 3 [9]) (FFTIn.mk 100 2 [1, 2, 3])).2,
        ∃ k, b.chunk = ((FFTIn.mk 100 2 [1, 2, 3]).samples.drop k).take 2) :=
  ⟨by decide,
    C9_spectrum_resync 2 1 (FFTState.mk 1 5 3 [9]) (FFTIn.mk 100 2 [1, 2, 3]) (by decide)⟩

/-- RMS of the k-th consecutive `per`-sample chunk of a buffer:
`sqrt(mean(x^2))` over samples `[k*per, (k+1)*per)`. -/
noncomputable def chunk_rms (per : ℕ) (buffer : List ℝ) (k : ℕ) : ℝ :=
  Real.sqrt ((((buffer.drop (k * per)).take per).map fun x => x * x).sum / per)

/-- Backlog contents and write index after recording the RMS values of
chunks `0..k` of a buffer into the 32-slot circular backlog, starting
from the given contents and index. -/
noncomputable def backlog_after (per : ℕ) (buffer : List ℝ)
    (backlog : List ℝ) (idx : ℕ) (k : ℕ) : List ℝ × ℕ :=
  (List.range (k + 1)).foldl
    (fun p j => (p.1.set p.2 (chunk_rms per buffer j), (p.2 + 1) % 32))
    (backlog, idx)

/-- Dropping one chunk shifts the chunk indexing by one. -/
theorem chunk_rms_shift (per : ℕ) (buffer : List ℝ) (j : ℕ) :
    chunk_rms per (buffer.drop per) j = chunk_rms per buffer (j + 1) := by
  unfold chunk_rms
  rw [List.drop_drop, show per + j * per = (j + 1) * per by ring]

/-- Recording chunks `0..k+1` of a buffer equals first recording chunk
`0` and then recording chunks `0..k` of the buffer less its first chunk. -/
theorem backlog_after_shift (per : ℕ) (buffer : List ℝ) (backlog : List ℝ)
    (idx k : ℕ) :
    backlog_after per buffer backlog idx (k + 1) =
      backlog_after per (buffer.drop per)
        (backlog.set idx (chunk_rms per buffer 0)) ((idx + 1) % 32) k := by
  unfold backlog_after
  rw [List.range_succ_eq_map, List.foldl_cons, List.foldl_map]
  exact List.foldl_ext _ _ _ (fun p j _ => by rw [chunk_rms_shift])

/-- Full characterisation of the RMS emission loop: it emits one block
per complete `per`-sample chunk of the buffer; the k-th block is stamped
at the base time plus the duration of the samples processed before it,
carries the RMS of chunk `k` as `curr`, and carries as `recent_peak` the
running maximum of the 32-slot backlog right after chunk `k`'s RMS was
recorded; the consumed chunks are erased from the front of the buffer
and the processed-sample counter advances by their total length. -/
theorem rms_loop_spec (rate per : ℕ) (hper : 0 < per) (t0 : ℤ) :
    ∀ (n : ℕ) (buffer : List ℝ), buffer.length ≤ n →
      ∀ (backlog : List ℝ) (idx processed : ℕ),
        (rms_loop rate per t0 buffer backlog idx processed).emitted.length =
          buffer.length / per ∧
        (rms_loop rate per t0 buffer backlog idx processed).buffer =
          buffer.drop (buffer.length / per * per) ∧
        (rms_loop rate per t0 buffer backlog idx processed).processed =
          processed + buffer.length / per * per ∧
        ∀ k, k < buffer.length / per →
          (rms_loop rate per t0 buffer backlog idx processed).emitted.get? k =
            some ⟨t0 + (((processed + k * per) * 1000000 / rate : ℕ) : ℤ),
                  chunk_rms per buffer k,
                  get_recent_peak (backlog_after per buffer backlog idx k).1⟩ := by
  intro n
  induction n with
  | zero =>
    intro buffer hbuf backlog idx processed
    have hlen : buffer.length = 0 := by omega
    have hno : ¬(per ≤ buffer.length ∧ 0 < per) := by omega
    rw [rms_loop, dif_neg hno]
    rw [hlen]
    simp [Nat.zero_div]
  | succ n ih =>
    intro buffer hbuf backlog idx processed
    by_cases h : per ≤ buffer.length
    · rw [rms_loop, dif_pos ⟨h, hper⟩]
      have hdrop : (buffer.drop per).length ≤ n := by
        simp only [List.length_drop]
        omega
      obtain ⟨ih1, ih2, ih3, ih4⟩ :=
        ih (buffer.drop per) hdrop (backlog.set idx
          (Real.sqrt ((((buffer.take per).map fun x => x * x).sum) / per)))
          ((idx + 1) % 32) (processed + per)
      have hdiv : buffer.length / per = (buffer.drop per).length / per + 1 := by
        rw [List.length_drop]
        rw [Nat.div_eq_sub_div hper h]
      refine ⟨?_, ?_, ?_, ?_⟩
      · dsimp only
        rw [List.length_cons, ih1, hdiv]
      · dsimp only
        rw [ih2, hdiv, List.drop_drop]
        congr 1
        rw [List.length_drop]
        ring
      · dsimp only
        rw [ih3, hdiv]
        ring
      · intro k hk
        have hc0 : chunk_rms per buffer 0 =
            Real.sqrt ((((buffer.take per).map fun x => x * x).sum) / per) := by
          unfold chunk_rms
          simp
        dsimp only
        cases k with
        | zero =>
          rw [List.get?_cons_zero]
          simp only [Option.some.injEq, LevelBlock.mk.injEq]
          refine ⟨?_, ?_, ?_⟩
          · simp
          · rw [hc0]
          · rw [show backlog_after per buffer backlog idx 0 =
                (backlog.set idx (chunk_rms per buffer 0), (idx + 1) % 32) by
                  unfold backlog_after
                  simp [List.range_succ]]
            rw [hc0]
        | succ k =>
          rw [List.get?_cons_succ]
          have hk' : k < (buffer.drop per).length / per := by
            rw [hdiv] at hk
            omega
          rw [ih4 k hk']
          simp only [Option.some.injEq, LevelBlock.mk.injEq]
          refine ⟨?_, ?_, ?_⟩
          · rw [show processed + per + k * per = processed + (k + 1) * per by ring]
          · rw [chunk_rms_shift]
          · rw [backlog_after_shift, hc0]
    · have hno : ¬(per ≤ buffer.length ∧ 0 < per) := by omega
      rw [rms_loop, dif_neg hno]
      have hdiv : buffer.length / per = 0 := Nat.div_eq_of_lt (by omega)
      rw [hdiv]
      simp

/-- Remainder identity used for buffer lengths. -/
theorem length_sub_div_mul (L p : ℕ) : L - L / p * p = L % p := by
  have h := Nat.div_add_mod L p
  rw [Nat.mul_comm] at h
  omega

/-- One call of `rms_process` on a block of the current rate (or onto an
empty buffer) emits one block per complete chunk of the combined buffer,
keeps the rate, and leaves the incomplete remainder buffered. -/
theorem rms_process_facts (st : RMSState) (blk : RMSIn)
    (hper : 0 < blk.sample_rate / 10)
    (hok : st.sample_rate = blk.sample_rate ∨ st.buffer = []) :
    (rms_process st blk).2.length =
      (st.buffer.length + blk.samples.length) / (blk.sample_rate / 10) ∧
    (rms_process st blk).1.sample_rate = blk.sample_rate ∧
    (rms_process st blk).1.buffer.length =
      (st.buffer.length + blk.samples.length) % (blk.sample_rate / 10) := by
  unfold rms_process
  by_cases hempty : st.buffer = []
  · rw [if_pos (Or.inl hempty)]
    dsimp only
    obtain ⟨l1, l2, _, _⟩ := rms_loop_spec blk.sample_rate (blk.sample_rate / 10)
      hper blk.t blk.samples.length blk.samples (le_refl _)
      st.backlog st.backlog_idx 0
    refine ⟨?_, rfl, ?_⟩
    · rw [l1, hempty]
      simp
    · rw [l2, hempty]
      simp only [List.length_drop, List.length_nil, Nat.zero_add]
      exact length_sub_div_mul _ _
  · have hrate : st.sample_rate = blk.sample_rate := hok.resolve_right hempty
    rw [if_neg (by simp [hempty, hrate])]
    dsimp only
    rw [hrate]
    obtain ⟨l1, l2, _, _⟩ := rms_loop_spec blk.sample_rate (blk.sample_rate / 10)
      hper st.t0 (st.buffer ++ blk.samples).length (st.buffer ++ blk.samples)
      (le_refl _) st.backlog st.backlog_idx 0
    refine ⟨?_, rfl, ?_⟩
    · rw [l1, List.length_append]
    · rw [l2]
      simp only [List.length_drop, List.length_append]
      exact length_sub_div_mul _ _

/-- Feeding a stream of blocks of one sample rate: the total number of
emitted LevelBlocks is the floor of total samples (including any prior
incomplete remainder) over the chunk size. -/
theorem rms_feed_emit_count (rate : ℕ) (hper : 0 < rate / 10) :
    ∀ (blocks : List (List ℝ)) (st : RMSState),
      (st.sample_rate = rate ∨ st.buffer = []) →
      st.buffer.length < rate / 10 →
      (rms_feed rate st blocks).2.length =
        (st.buffer.length + (blocks.map List.length).sum) / (rate / 10) := by
  intro blocks
  induction blocks with
  | nil =>
    intro st _ hlt
    unfold rms_feed
    simp [Nat.div_eq_of_lt hlt]
  | cons b bs ih =>
    intro st hok hlt
    unfold rms_feed
    dsimp only
    obtain ⟨f1, f2, f3⟩ := rms_process_facts st ⟨0, rate, b⟩ hper hok
    dsimp only at f1 f3
    rw [List.length_append, f1]
    have hlt' : (rms_process st ⟨0, rate, b⟩).1.buffer.length < rate / 10 := by
      rw [f3]
      exact Nat.mod_lt _ hper
    rw [ih _ (Or.inl f2) hlt', f3]
    simp only [List.map_cons, List.sum_cons]
    rw [show st.buffer.length + (b.length + (bs.map List.length).sum) =
        (st.buffer.length + b.length) + (bs.map List.length).sum by ring]
    rw [show (st.buffer.length + b.length) + (bs.map List.length).sum =
        ((st.buffer.length + b.length) % (rate / 10) + (bs.map List.length).sum)
          + (rate / 10) * ((st.buffer.length + b.length) / (rate / 10)) by
        have h := Nat.div_add_mod (st.buffer.length + b.length) (rate / 10)
        omega]
    rw [Nat.add_mul_div_left _ _ hper]
    omega

/-- C5: whenever the accumulation buffer holds at least `sample_rate/10`
samples, the emission loop emits one LevelBlock per complete chunk — the
k-th with `curr = sqrt(mean(x^2))` over exactly the first unconsumed
`sample_rate/10` samples, stamped at `base_time + processed_samples *
1e6/sample_rate` microseconds (integer division, as the source computes
it), its RMS recorded into the 32-slot circular backlog and
`recent_peak` the maximum over that backlog — and erases the consumed
samples from the front; consequently a constant-rate stream of blocks
totalling `total_samples` samples yields exactly
`total_samples / (sample_rate/10)` LevelBlocks. -/
theorem C5_level_cadence_and_content (rate : ℕ) (hper : 0 < rate / 10) :
    (∀ (t0 : ℤ) (buffer backlog : List ℝ) (idx : ℕ),
      (rms_loop rate (rate / 10) t0 buffer backlog idx 0).emitted.length =
          buffer.length / (rate / 10) ∧
      (rms_loop rate (rate / 10) t0 buffer backlog idx 0).buffer =
          buffer.drop (buffer.length / (rate / 10) * (rate / 10)) ∧
      ∀ k, k < buffer.length / (rate / 10) →
        (rms_loop rate (rate / 10) t0 buffer backlog idx 0).emitted.get? k =
          some ⟨t0 + (((k * (rate / 10)) * 1000000 / rate : ℕ) : ℤ),
                chunk_rms (rate / 10) buffer k,
                get_recent_peak
                  (backlog_after (rate / 10) buffer backlog idx k).1⟩) ∧
    ∀ blocks : List (List ℝ),
      (rms_feed rate rms_fresh blocks).2.length =
        (blocks.map List.length).sum / (rate / 10) := by
  constructor
  · intro t0 buffer backlog idx
    obtain ⟨l1, l2, _, l4⟩ := rms_loop_spec rate (rate / 10) hper t0
      buffer.length buffer (le_refl _) backlog idx 0
    refine ⟨l1, l2, ?_⟩
    intro k hk
    rw [l4 k hk]
    simp
  · intro blocks
    have h := rms_feed_emit_count rate hper blocks rms_fresh (Or.inr rfl)
      (by simpa [rms_fresh] using hper)
    simpa [rms_fresh] using h

/-- Concrete instantiation of `C5_level_cadence_and_content`: sample rate
20, chunk size 2. -/
theorem C5_level_cadence_and_content_witness :
    0 < 20 / 10 ∧
    ((∀ (t0 : ℤ) (buffer backlog : List ℝ) (idx : ℕ),
      (rms_loop 20 (20 / 10) t0 buffer backlog idx 0).emitted.length =
          buffer.length / (20 / 10) ∧
      (rms_loop 20 (20 / 10) t0 buffer backlog idx 0).buffer =
          buffer.drop (buffer.length / (20 / 10) * (20 / 10)) ∧
      ∀ k, k < buffer.length / (20 / 10) →
        (rms_loop 20 (20 / 10) t0 buffer backlog idx 0).emitted.get? k =
          some ⟨t0 + (((k * (20 / 10)) * 1000000 / 20 : ℕ) : ℤ),
                chunk_rms (20 / 10) buffer k,
                get_recent_peak
                  (backlog_after (20 / 10) buffer backlog idx k).1⟩) ∧
    ∀ blocks : List (List ℝ),
      (rms_feed 20 rms_fresh blocks).2.length =
        (blocks.map List.length).sum / (20 / 10)) :=
  ⟨by norm_num, C5_level_cadence_and_content 20 (by norm_num)⟩
